import Mathlib

/-!
The publisher of go-mercure.

A shallow embedding of `mercure/publisher.go` (`NewPublisher`, `Publisher.Publish`,
`getData`) together with the parts of the Go standard library it calls
(`url.Values.Add`, `url.Values.Encode`, `url.QueryEscape`, `sort.Strings`,
`http.Header.Set`, `strconv.Itoa`, the `string(int)` conversion).

Go strings and byte slices are sequences of bytes; both are lists of `Fin 256`.
The outside world (map iteration order, URL parsing, the network) is a parameter.
-/

namespace Mercure

/-! ## Strings and bytes -/

abbrev Byte := Fin 256

abbrev GoString := List Byte

/-- The bytes of an ASCII literal. -/
def ascii (s : String) : GoString :=
  s.toList.map (fun c => Fin.ofNat c.toNat)

/-- Go's `a < b` on strings: bytewise lexicographic order. -/
def strLess : GoString → GoString → Bool
  | [], [] => false
  | [], _ :: _ => true
  | _ :: _, [] => false
  | a :: as, b :: bs => if a < b then true else if b < a then false else strLess as bs

/-- Go's `a <= b` on strings. -/
def strLe (a b : GoString) : Bool := !strLess b a

/-- An `error` value: one made by `errors.New`, carrying its message, or a
`*url.Error`, carrying the operation, the URL and the error it wraps. -/
inductive GoError where
  | errorString (msg : GoString)
  | urlError (Op URL : GoString) (Err : GoError)
deriving DecidableEq, Repr

/-- `errors.New`. -/
def errors.New (m : GoString) : GoError := GoError.errorString m

/-! ## `strconv.Itoa` and `string(int)` -/

/-- Decimal digits of a natural number, most significant first. -/
def natDigits (n : Nat) : GoString :=
  (Nat.toDigits 10 n).map (fun c => Fin.ofNat c.toNat)

/-- `strconv.Itoa`. -/
def strconv.Itoa (i : Int) : GoString :=
  if i < 0 then (45 : Byte) :: natDigits i.natAbs else natDigits i.natAbs

/-- `utf8.EncodeRune` on a valid code point. -/
def encodeRune (n : Nat) : GoString :=
  if n < 0x80 then [Fin.ofNat n]
  else if n < 0x800 then [Fin.ofNat (0xC0 + n / 64), Fin.ofNat (0x80 + n % 64)]
  else if n < 0x10000 then
    [Fin.ofNat (0xE0 + n / 4096), Fin.ofNat (0x80 + n / 64 % 64), Fin.ofNat (0x80 + n % 64)]
  else
    [Fin.ofNat (0xF0 + n / 262144), Fin.ofNat (0x80 + n / 4096 % 64),
     Fin.ofNat (0x80 + n / 64 % 64), Fin.ofNat (0x80 + n % 64)]

/-- The conversion `string(i)` of an integer: the UTF-8 encoding of the code point
`i`, and of U+FFFD when `i` is not a valid code point. -/
def intToString (i : Int) : GoString :=
  if i < 0 ∨ 0x10FFFF < i ∨ (0xD800 ≤ i ∧ i ≤ 0xDFFF) then [0xEF, 0xBF, 0xBD]
  else encodeRune i.toNat

/-! ## `url.Values` -/

/-- A `map[string][]string`: its entries, each key once. -/
abbrev Values := List (GoString × List GoString)

/-- The map index `v[key]`: the nil slice when the key is absent. -/
def Values.index (v : Values) (key : GoString) : List GoString :=
  match v with
  | [] => []
  | (k, vs) :: rest => if k = key then vs else Values.index rest key

/-- Whether `key` is a key of the map (`_, ok := v[key]`). -/
def Values.has (v : Values) (key : GoString) : Bool :=
  match v with
  | [] => false
  | (k, _) :: rest => if k = key then true else Values.has rest key

/-- The assignment `v[key] = vs`. -/
def Values.store (v : Values) (key : GoString) (vs : List GoString) : Values :=
  match v with
  | [] => [(key, vs)]
  | (k, old) :: rest =>
    if k = key then (k, vs) :: rest else (k, old) :: Values.store rest key vs

/-- `func (v Values) Add(key, value string)`: `v[key] = append(v[key], value)`. -/
def Values.Add (v : Values) (key value : GoString) : Values :=
  Values.store v key (Values.index v key ++ [value])

/-- The keys of the map, in the order of its entries. -/
def Values.keys (v : Values) : List GoString := v.map Prod.fst

/-! ## `url.QueryEscape` -/

/-- `shouldEscape(c, encodeQueryComponent)`. -/
def shouldEscape (c : Byte) : Bool :=
  if (97 ≤ c ∧ c ≤ 122) ∨ (65 ≤ c ∧ c ≤ 90) ∨ (48 ≤ c ∧ c ≤ 57) then false
  else if c = 45 ∨ c = 95 ∨ c = 46 ∨ c = 126 then false
  else true

/-- `upperhex[i]` for `i < 16`, with `upperhex = "0123456789ABCDEF"`. -/
def upperhex (i : Nat) : Byte :=
  if i < 10 then Fin.ofNat (48 + i) else Fin.ofNat (55 + i)

/-- What `escape` writes for one input byte in mode `encodeQueryComponent`. -/
def escapeByte (c : Byte) : GoString :=
  if c = 32 then [43]
  else if shouldEscape c then [37, upperhex (c.val / 16), upperhex (c.val % 16)]
  else [c]

/-- `url.QueryEscape`. -/
def QueryEscape (s : GoString) : GoString :=
  match s with
  | [] => []
  | c :: rest => escapeByte c ++ QueryEscape rest

/-! ## `sort.Strings` and `Values.Encode` -/

/-- `sort.Strings`: the strings in increasing order. The sorted rearrangement of a
list of strings is unique, so the sorting method does not show in the result; it
is computed here by insertion. -/
def sortStrings (keys : List GoString) : List GoString :=
  keys.insertionSort (fun a b => strLe a b = true)

/-- The inner loop of `Encode` for one key: appends `key=value` for each value,
preceded by `&` when the buffer is not empty. -/
def encodeKey (keyEscaped : GoString) (vs : List GoString) (buf : GoString) : GoString :=
  vs.foldl
    (fun buf v =>
      let buf := if buf.length > 0 then buf ++ [(38 : Byte)] else buf
      buf ++ keyEscaped ++ [(61 : Byte)] ++ QueryEscape v)
    buf

/-- `func (v Values) Encode() string`. `range` visits the keys of the map in the
order `range v.keys`, which the language leaves unspecified; the keys are then
sorted. -/
def Values.Encode (range : List GoString → List GoString) (v : Values) : GoString :=
  let keys := sortStrings (range (Values.keys v))
  keys.foldl (fun buf k => encodeKey (QueryEscape k) (Values.index v k) buf) []

/-! ## `getData` -/

/-- The struct `Update`. The field `Type` is written `Type_`. `Retry` is a Go
`int`; `getData` does no arithmetic on it, so it is an integer without bound here. -/
structure Update where
  Topics : List GoString
  Data : List Byte
  Targets : List GoString
  Id : GoString
  Type_ : GoString
  Retry : Int
deriving DecidableEq, Repr

/-- `func getData(u Update) (url.Values, error)`. -/
def getData (u : Update) : Values × Option GoError :=
  let d : Values := []
  if u.Topics.length = 0 then (d, some (errors.New (ascii "Missing topic")))
  else if u.Data.length = 0 then (d, some (errors.New (ascii "Missing data")))
  else
    let d := u.Topics.foldl (fun d topic => Values.Add d (ascii "topic") topic) d
    let d := Values.Add d (ascii "data") u.Data
    let d := u.Targets.foldl (fun d target => Values.Add d (ascii "target") target) d
    let d := if u.Id ≠ [] then Values.Add d (ascii "id") u.Id else d
    let d := if u.Type_ ≠ [] then Values.Add d (ascii "type") u.Type_ else d
    let d := if u.Retry > 0 then Values.Add d (ascii "retry") (intToString u.Retry) else d
    (d, none)

/-! ## HTTP: headers, requests, responses, clients -/

/-- `validHeaderFieldByte`: the token characters of RFC 7230. -/
def validHeaderFieldByte (c : Byte) : Bool :=
  (97 ≤ c ∧ c ≤ 122) ∨ (65 ≤ c ∧ c ≤ 90) ∨ (48 ≤ c ∧ c ≤ 57) ∨
    c ∈ ([33, 35, 36, 37, 38, 39, 42, 43, 45, 46, 94, 95, 96, 124, 126] : List Byte)

/-- The rewriting loop of `canonicalMIMEHeaderKey`: the first letter and every
letter after a hyphen in upper case, the other letters in lower case. -/
def canonicalLoop (upper : Bool) : GoString → GoString
  | [] => []
  | c :: rest =>
    let c1 : Byte :=
      if upper ∧ 97 ≤ c ∧ c ≤ 122 then c - 32
      else if ¬ upper ∧ 65 ≤ c ∧ c ≤ 90 then c + 32
      else c
    c1 :: canonicalLoop (c1 = 45) rest

/-- `textproto.CanonicalMIMEHeaderKey`: a key holding a byte that is not a token
character is returned unchanged. -/
def CanonicalMIMEHeaderKey (s : GoString) : GoString :=
  if s.all validHeaderFieldByte then canonicalLoop true s else s

/-- `http.Header`, a `map[string][]string`. -/
abbrev Header := Values

/-- `func (h Header) Set(key, value string)`. -/
def Header.Set (h : Header) (key value : GoString) : Header :=
  Values.store h (CanonicalMIMEHeaderKey key) [value]

/-- `func (h Header) Get(key string) string`: the first value of the key, or `""`. -/
def Header.Get (h : Header) (key : GoString) : GoString :=
  match Values.index h (CanonicalMIMEHeaderKey key) with
  | [] => []
  | v :: _ => v

/-- A parsed URL, represented by its text (what `String()` returns). -/
structure URL where
  text : GoString
deriving DecidableEq, Repr

/-- `func (u *URL) String() string`. -/
def URL.String (u : URL) : GoString := u.text

/-- The fields of `http.Request` that `Publish` touches. -/
structure Request where
  Method : GoString
  URL : URL
  Header : Header
  Body : GoString
deriving DecidableEq, Repr

/-- The fields of `http.Response` that `Publish` and `Client.Do` touch. `Body` is
what `ioutil.ReadAll(resp.Body)` returns: the bytes read and the read error, if
any. -/
structure Response where
  StatusCode : Int
  Header : Header
  Body : GoString × Option GoError
deriving DecidableEq, Repr

/-- A `http.RoundTripper`: what the network answers to a request. -/
abbrev RoundTripper := Request → Except GoError Response

/-- A `http.Client` whose `CheckRedirect`, `Jar` and `Timeout` are the zero value.
A nil `Transport` stands for `http.DefaultTransport`, so `&http.Client{}` is the
client with `Transport := none`. -/
structure Client where
  Transport : Option RoundTripper

/-- What the program cannot decide by itself. -/
structure World where
  /-- the order in which the `n`-th `range` over a map visits its keys -/
  mapRange : Nat → List GoString → List GoString
  /-- the outcome of `url.Parse` -/
  urlParse : GoString → Except GoError URL
  /-- the behaviour of `http.DefaultTransport` -/
  DefaultTransport : RoundTripper
  /-- the outcome of `func (u *URL) Parse(ref string)` on a `Location` header; the
  error is the one `Client.Do` reports for a `Location` that does not parse -/
  urlResolve : URL → GoString → Except GoError URL
  /-- the header of a redirected request, from the first request, the request
  just answered and the new URL: the headers `makeHeadersCopier` keeps, and the
  `Referer` -/
  redirectHeader : Request → Request → URL → Header
  /-- `stripPassword`: the text of a URL with its password hidden -/
  stripPassword : URL → GoString
  /-- whether a 301, 302 or 303 response without `Location` is an error (it is
  before Go 1.18) or is handed to the caller -/
  strictLocation : Bool

/-- A world whose map iteration visits every key exactly once. -/
def World.WellFormed (w : World) : Prop :=
  ∀ n keys, (w.mapRange n keys).Perm keys

/-- `strings.ToLower` on a method name, which is an ASCII token. -/
def toLowerASCII (s : GoString) : GoString :=
  s.map (fun c => if 65 ≤ c ∧ c ≤ 90 then c + 32 else c)

/-- `urlErrorOp`: the operation a `*url.Error` names, `Post` for `POST`. -/
def urlErrorOp (method : GoString) : GoString :=
  match method with
  | [] => ascii "Get"
  | c :: rest => c :: toLowerASCII rest

/-- `redirectBehavior`: the method of the next request, whether `Do` follows the
response, and whether the next request carries the body. The body of a request
can be read again (`GetBody` is set, as `NewRequest` sets it for a
`strings.Reader`). -/
def redirectBehavior (reqMethod : GoString) (resp : Response) : GoString × Bool × Bool :=
  if resp.StatusCode = 301 ∨ resp.StatusCode = 302 ∨ resp.StatusCode = 303 then
    (if reqMethod ≠ ascii "GET" ∧ reqMethod ≠ ascii "HEAD" then ascii "GET" else reqMethod,
      true, false)
  else if resp.StatusCode = 307 ∨ resp.StatusCode = 308 then
    if Header.Get resp.Header (ascii "Location") = [] then (reqMethod, false, true)
    else (reqMethod, true, true)
  else ([], false, false)

/-- The loop of `func (c *Client) do(req *Request)`: sends `req` through the
transport `rt`; a transport error is wrapped in a `*url.Error`; a response that
is no redirect is returned; a redirect is followed with a new request, `n` more
times at most. `ireq` is the first request of the call. -/
def Client.doLoop (w : World) (rt : RoundTripper) (ireq : Request) :
    Nat → Request → Except GoError Response
  | n, req =>
    match rt req with
    | .error err =>
      .error (GoError.urlError (urlErrorOp ireq.Method) (w.stripPassword req.URL) err)
    | .ok resp =>
      match redirectBehavior req.Method resp with
      | (_, false, _) => .ok resp
      | (redirectMethod, true, includeBody) =>
        let loc := Header.Get resp.Header (ascii "Location")
        if loc = [] then
          if w.strictLocation then
            .error (GoError.urlError (urlErrorOp ireq.Method) (w.stripPassword req.URL)
              (errors.New (strconv.Itoa resp.StatusCode
                ++ ascii " response missing Location header")))
          else .ok resp
        else
          match w.urlResolve req.URL loc with
          | .error err =>
            .error (GoError.urlError (urlErrorOp ireq.Method) (w.stripPassword req.URL) err)
          | .ok u =>
            match n with
            | 0 =>
              .error (GoError.urlError (urlErrorOp ireq.Method) loc
                (errors.New (ascii "stopped after 10 redirects")))
            | m + 1 =>
              Client.doLoop w rt ireq m
                { Method := redirectMethod, URL := u, Header := w.redirectHeader ireq req u,
                  Body := if includeBody then ireq.Body else [] }

/-- `func (c *Client) Do(req *Request) (*Response, error)`: the default redirect
policy stops at the tenth request. -/
def Client.Do (w : World) (h : Client) (req : Request) : Except GoError Response :=
  match h.Transport with
  | none => Client.doLoop w w.DefaultTransport req 9 req
  | some rt => Client.doLoop w rt req 9 req

/-- `http.NewRequest(method, url, body)` for a valid method: fails when the URL
does not parse. -/
def http.NewRequest (w : World) (method url body : GoString) : Except GoError Request :=
  match w.urlParse url with
  | .error e => .error e
  | .ok u => .ok { Method := method, URL := u, Header := [], Body := body }

/-! ## The publisher -/

/-- The struct `Publisher`. Its `url` and `client` are pointers that are not nil. -/
structure Publisher where
  url : URL
  jwt : GoString
  client : Client

/-- `func NewPublisher(url *url.URL, jwt string, httpClient *http.Client) Publisher`. -/
def NewPublisher (url : URL) (jwt : GoString) (httpClient : Option Client) : Publisher :=
  let httpClient : Client :=
    match httpClient with
    | none => { Transport := none }
    | some h => h
  { url := url, jwt := jwt, client := httpClient }

/-- A call that leaves the program. -/
inductive Call where
  | newRequest (method url body : GoString)
  | clientDo (h : Client) (req : Request)

/-- What a call of `Publish` returns, and the outside calls it made, in order. -/
structure Outcome where
  id : GoString
  err : Option GoError
  calls : List Call

/-- The requests handed to a client. -/
def Outcome.sent (o : Outcome) : List Request :=
  o.calls.filterMap (fun c => match c with
    | .clientDo _ req => some req
    | .newRequest _ _ _ => none)

/-- `func (c *Publisher) Publish(u Update) (string, error)`. -/
def Publisher.Publish (w : World) (c : Publisher) (u : Update) : Outcome :=
  match getData u with
  | (_, some err) => { id := [], err := some err, calls := [] }
  | (d, none) =>
    let body := Values.Encode (w.mapRange 0) d
    let call1 := Call.newRequest (ascii "POST") (URL.String c.url) body
    match http.NewRequest w (ascii "POST") (URL.String c.url) body with
    | .error err => { id := [], err := some err, calls := [call1] }
    | .ok r =>
      let r := { r with Header := Header.Set r.Header (ascii "User-Agent") (ascii "go-mercure/dev") }
      let r := { r with Header := Header.Set r.Header (ascii "Authorization") (ascii "Bearer " ++ c.jwt) }
      let contentType := ascii "application/x-www-form-urlencoded"
      let r := { r with Header := Header.Set r.Header (ascii "Content-Type") contentType }
      let contentLength := strconv.Itoa (Values.Encode (w.mapRange 1) d).length
      let r := { r with Header := Header.Set r.Header (ascii "Content-Length") contentLength }
      let h : Client := { Transport := none }
      let call2 := Call.clientDo h r
      match Client.Do w h r with
      | .error err => { id := [], err := some err, calls := [call1, call2] }
      | .ok resp =>
        match resp.Body with
        | (_, some err) => { id := [], err := some err, calls := [call1, call2] }
        | (b, none) => { id := b, err := none, calls := [call1, call2] }

/-- An update passes validation when it has a topic and data. -/
def Update.Valid (u : Update) : Prop := u.Topics ≠ [] ∧ u.Data ≠ []

instance (u : Update) : Decidable u.Valid := by
  unfold Update.Valid; infer_instance

/-- The fields `getData` builds for an update that passes validation, in the
order in which their keys are first added. -/
def fieldsOf (u : Update) : Values :=
  [(ascii "topic", u.Topics), (ascii "data", [u.Data])]
    ++ (if u.Targets = [] then [] else [(ascii "target", u.Targets)])
    ++ (if u.Id = [] then [] else [(ascii "id", [u.Id])])
    ++ (if u.Type_ = [] then [] else [(ascii "type", [u.Type_])])
    ++ (if u.Retry > 0 then [(ascii "retry", [intToString u.Retry])] else [])

/-- One `key=value` field as `Encode` writes it. -/
def fieldOf (k v : GoString) : GoString := QueryEscape k ++ [61] ++ QueryEscape v

/-- The fields of a map, key by key in the order `keys`, values in their order. -/
def fieldsIn (v : Values) (keys : List GoString) : List GoString :=
  keys.flatMap (fun k => (Values.index v k).map (fieldOf k))

/-! ## The body as the specification words it -/

/-- The keys in ascending alphabetical order. -/
def specKeys : List GoString :=
  [ascii "data", ascii "id", ascii "retry", ascii "target", ascii "topic", ascii "type"]

/-- ASCII letters, digits, `-`, `_`, `.` and `~`. -/
def specUnreserved (c : Byte) : Bool :=
  c ∈ ascii "ABCDEFGHIJKLMNOPQRSTUVWXYZabcdefghijklmnopqrstuvwxyz0123456789-_.~"

/-- The upper-case hexadecimal digit of a value below 16. -/
def specHexDigit (n : Nat) : Byte := (ascii "0123456789ABCDEF").getD n 0

/-- Form escaping of one byte: space becomes `+`, an unreserved byte stays, any
other byte becomes `%XX`. -/
def specEscapeByte (c : Byte) : GoString :=
  if c = 32 then ascii "+"
  else if specUnreserved c then [c]
  else ascii "%" ++ [specHexDigit (c.val / 16), specHexDigit (c.val % 16)]

/-- Form escaping of a value. -/
def specEscape (s : GoString) : GoString := s.flatMap specEscapeByte

/-- The key/value pairs of the fields: keys in ascending alphabetical order, the
values of one key consecutive and in their order. -/
def specPairs (d : Values) : List (GoString × GoString) :=
  specKeys.flatMap (fun k => (Values.index d k).map (fun v => (k, v)))

/-- The body: the pairs written `key=value`, joined by `&`. -/
def specBody (d : Values) : GoString :=
  (ascii "&").intercalate ((specPairs d).map (fun p => p.1 ++ ascii "=" ++ specEscape p.2))

/-! ## Reading an escaped string back -/

/-- The value of a hexadecimal digit (`unhex`). -/
def unhex (c : Byte) : Nat :=
  if 48 ≤ c ∧ c ≤ 57 then c.val - 48
  else if 97 ≤ c ∧ c ≤ 102 then c.val - 97 + 10
  else if 65 ≤ c ∧ c ≤ 70 then c.val - 65 + 10
  else 0

/-- One step of `url.QueryUnescape`: the first byte an escaped string stands for,
and the rest of the string. -/
def unescapeHead (s : GoString) : Option (Byte × GoString) :=
  match s with
  | [] => none
  | c :: rest =>
    if c = 43 then some (32, rest)
    else if c = 37 then
      match rest with
      | h :: l :: rest2 => some (Fin.ofNat (unhex h * 16 + unhex l), rest2)
      | _ => none
    else some (c, rest)

/-! ## Sample values -/

/-- A world in which maps are ranged over backwards, every URL parses, and the
default transport reaches a hub that answers `uuid`. -/
def testWorld : World where
  mapRange := fun _ keys => keys.reverse
  urlParse := fun s => .ok ⟨s⟩
  DefaultTransport := fun _ =>
    .ok { StatusCode := 200, Header := [], Body := (ascii "uuid", none) }
  urlResolve := fun _ loc => .ok ⟨loc⟩
  redirectHeader := fun _ _ _ => []
  stripPassword := fun u => u.text
  strictLocation := true

/-- A world like `testWorld` whose hub answers a `POST` with `302` and a
`Location`, and any other request with `final`. -/
def redirectWorld : World :=
  { testWorld with
    DefaultTransport := fun req =>
      if req.Method = ascii "POST" then
        .ok { StatusCode := 302, Header := [(ascii "Location", [ascii "http://hub/new"])],
              Body := (ascii "moved", none) }
      else .ok { StatusCode := 404, Header := [], Body := (ascii "final", none) } }

def hubURL : URL := ⟨ascii "http://localhost:3001/.well-known/mercure"⟩

def testPublisher : Publisher := NewPublisher hubURL (ascii "jwt-token") none

/-- The update of `TestPublishMinimalUpdate`. -/
def minimalUpdate : Update :=
  { Topics := [ascii "http://localhost/test"], Data := ascii "Hello World",
    Targets := [], Id := [], Type_ := [], Retry := 0 }

/-- The update of `TestPublishCompleteUpdate`. -/
def completeUpdate : Update :=
  { Topics := [ascii "http://localhost/test"], Data := ascii "Hello World",
    Targets := [ascii "target1"], Id := ascii "id", Type_ := ascii "type", Retry := 5 }

/-- The update of `TestPublishUpdateWithMultipleTargets`. -/
def multiTargetUpdate : Update :=
  { Topics := [ascii "http://localhost/test"], Data := ascii "Hello World",
    Targets := [ascii "target1", ascii "target2", ascii "target3"],
    Id := [], Type_ := [], Retry := 0 }

/-- The update of `TestErrorOccuredWhenPublishUpdateWithoutTopic`. -/
def noTopicUpdate : Update :=
  { Topics := [], Data := ascii "Hello World", Targets := [], Id := [], Type_ := [], Retry := 0 }

/-- The update of `TestErrorOccuredWhenPublishUpdateWithoutData`. -/
def noDataUpdate : Update :=
  { Topics := [ascii "http://localhost/test"], Data := [], Targets := [], Id := [],
    Type_ := [], Retry := 0 }

/-- An update with neither topic nor data. -/
def emptyUpdate : Update :=
  { Topics := [], Data := [], Targets := [], Id := [], Type_ := [], Retry := 0 }

/-- A client whose transport refuses every connection. -/
def refusingClient : Client :=
  { Transport := some (fun _ => .error (errors.New (ascii "connection refused"))) }

/-- Two updates that differ in `Retry` only, by a surrogate code point and U+FFFD. -/
def surrogateRetryUpdate : Update := { minimalUpdate with Retry := 0xD800 }

def replacementRetryUpdate : Update := { minimalUpdate with Retry := 0xFFFD }

/-- A topic that spells out a second field, and the update that has that field. -/
def injectingUpdate : Update :=
  { Topics := [ascii "a&target=b"], Data := ascii "x", Targets := [], Id := [],
    Type_ := [], Retry := 0 }

def injectedUpdate : Update :=
  { Topics := [ascii "a"], Data := ascii "x", Targets := [ascii "b"], Id := [],
    Type_ := [], Retry := 0 }

end Mercure

namespace Mercure

/-! ## Lemmas on `url.Values` -/

theorem Values.index_of_not_mem (v : Values) (k : GoString) (h : k ∉ Values.keys v) :
    Values.index v k = [] := by
  induction v with
  | nil => rfl
  | cons e rest ih =>
    obtain ⟨k1, vs⟩ := e
    simp only [Values.keys, List.map_cons, List.mem_cons, not_or] at h
    have h1 : ¬ k1 = k := fun h2 => h.1 h2.symm
    simp only [Values.index, h1, if_false]
    exact ih h.2

theorem Values.store_of_not_mem (v : Values) (k : GoString) (vs : List GoString)
    (h : k ∉ Values.keys v) : Values.store v k vs = v ++ [(k, vs)] := by
  induction v with
  | nil => rfl
  | cons e rest ih =>
    obtain ⟨k1, old⟩ := e
    simp only [Values.keys, List.map_cons, List.mem_cons, not_or] at h
    have h1 : ¬ k1 = k := fun h2 => h.1 h2.symm
    simp only [Values.store, h1, if_false, List.cons_append, List.cons.injEq, true_and]
    exact ih h.2

theorem Values.index_append_self (v : Values) (k : GoString) (xs : List GoString)
    (h : k ∉ Values.keys v) : Values.index (v ++ [(k, xs)]) k = xs := by
  induction v with
  | nil => simp [Values.index]
  | cons e rest ih =>
    obtain ⟨k1, old⟩ := e
    simp only [Values.keys, List.map_cons, List.mem_cons, not_or] at h
    have h1 : ¬ k1 = k := fun h2 => h.1 h2.symm
    simp only [List.cons_append, Values.index, h1, if_false]
    exact ih h.2

theorem Values.store_append_self (v : Values) (k : GoString) (xs vs : List GoString)
    (h : k ∉ Values.keys v) : Values.store (v ++ [(k, xs)]) k vs = v ++ [(k, vs)] := by
  induction v with
  | nil => simp [Values.store]
  | cons e rest ih =>
    obtain ⟨k1, old⟩ := e
    simp only [Values.keys, List.map_cons, List.mem_cons, not_or] at h
    have h1 : ¬ k1 = k := fun h2 => h.1 h2.symm
    simp only [List.cons_append, Values.store, h1, if_false, List.cons.injEq, true_and]
    exact ih h.2

/-- Adding a value under a key the map does not have yet creates the entry. -/
theorem Values.Add_new (v : Values) (k x : GoString) (h : k ∉ Values.keys v) :
    Values.Add v k x = v ++ [(k, [x])] := by
  unfold Values.Add
  rw [Values.index_of_not_mem v k h, Values.store_of_not_mem v k _ h]
  rfl

/-- Adding further values under the key of the last entry extends that entry. -/
theorem Values.foldl_Add_last (v : Values) (k : GoString) (h : k ∉ Values.keys v)
    (vs xs : List GoString) :
    vs.foldl (fun d x => Values.Add d k x) (v ++ [(k, xs)]) = v ++ [(k, xs ++ vs)] := by
  induction vs generalizing xs with
  | nil => simp
  | cons x rest ih =>
    simp only [List.foldl_cons]
    have : Values.Add (v ++ [(k, xs)]) k x = v ++ [(k, xs ++ [x])] := by
      unfold Values.Add
      rw [Values.index_append_self v k xs h, Values.store_append_self v k xs _ h]
    rw [this, ih]
    simp

/-- A loop of `Add` under a fresh key: nothing for no value, one entry otherwise. -/
theorem Values.foldl_Add_new (v : Values) (k : GoString) (h : k ∉ Values.keys v)
    (vs : List GoString) :
    vs.foldl (fun d x => Values.Add d k x) v = if vs = [] then v else v ++ [(k, vs)] := by
  cases vs with
  | nil => simp
  | cons x rest =>
    simp only [List.foldl_cons, reduceCtorEq, if_false]
    rw [Values.Add_new v k x h, Values.foldl_Add_last v k h rest [x]]
    simp

/-- What `getData` returns on an update that passes validation. -/
theorem getData_valid (u : Update) (h : u.Valid) : getData u = (fieldsOf u, none) := by
  obtain ⟨hT, hD⟩ := h
  have hT1 : ¬ u.Topics.length = 0 := by simpa [List.length_eq_zero] using hT
  have hD1 : ¬ u.Data.length = 0 := by simpa [List.length_eq_zero] using hD
  have e1 : u.Topics.foldl (fun d topic => Values.Add d (ascii "topic") topic) []
      = [(ascii "topic", u.Topics)] := by
    rw [Values.foldl_Add_new [] (ascii "topic") (by simp [Values.keys]) u.Topics]
    simp [hT]
  have e2 : Values.Add [(ascii "topic", u.Topics)] (ascii "data") u.Data
      = [(ascii "topic", u.Topics), (ascii "data", [u.Data])] :=
    Values.Add_new _ _ _ (by simp +decide [Values.keys])
  have e3 : u.Targets.foldl (fun d target => Values.Add d (ascii "target") target)
      [(ascii "topic", u.Topics), (ascii "data", [u.Data])]
      = [(ascii "topic", u.Topics), (ascii "data", [u.Data])]
        ++ (if u.Targets = [] then [] else [(ascii "target", u.Targets)]) := by
    rw [Values.foldl_Add_new _ (ascii "target") (by simp +decide [Values.keys]) u.Targets]
    split <;> simp
  unfold getData fieldsOf
  simp only [hT1, hD1, if_false, e1, e2, e3]
  by_cases h1 : u.Targets = [] <;> by_cases h2 : u.Id = [] <;> by_cases h3 : u.Type_ = []
    <;> by_cases h4 : u.Retry > 0
    <;> simp only [h1, h2, h3, h4, if_true, if_false, ne_eq, not_true_eq_false, not_false_eq_true,
      List.append_nil, List.cons_append, List.nil_append, Prod.mk.injEq, and_true]
    <;> simp +decide [Values.Add, Values.index, Values.store]

end Mercure
namespace Mercure

/-! ## The order on strings and `sort.Strings` -/

theorem strLess_irrefl (a : GoString) : strLess a a = false := by
  induction a with
  | nil => rfl
  | cons x xs ih => simp [strLess, ih]

theorem strLess_asymm (a b : GoString) (h : strLess a b = true) : strLess b a = false := by
  induction a generalizing b with
  | nil => cases b <;> simp_all [strLess]
  | cons x xs ih =>
    cases b with
    | nil => simp_all [strLess]
    | cons y ys =>
      simp only [strLess] at h ⊢
      rcases lt_trichotomy x y with hxy | hxy | hxy
      · simp [hxy, lt_asymm hxy]
      · subst hxy
        simp only [lt_self_iff_false, if_false] at h ⊢
        exact ih ys h
      · simp [hxy, lt_asymm hxy] at h

theorem strLess_trichotomy (a b : GoString) :
    strLess a b = true ∨ a = b ∨ strLess b a = true := by
  induction a generalizing b with
  | nil => cases b <;> simp [strLess]
  | cons x xs ih =>
    cases b with
    | nil => simp [strLess]
    | cons y ys =>
      simp only [strLess]
      rcases lt_trichotomy x y with hxy | hxy | hxy
      · simp [hxy]
      · subst hxy
        simpa using ih ys
      · simp [hxy, lt_asymm hxy]

theorem strLess_trans (a b c : GoString) (h1 : strLess a b = true) (h2 : strLess b c = true) :
    strLess a c = true := by
  induction a generalizing b c with
  | nil =>
    cases c with
    | nil => cases b <;> simp_all [strLess]
    | cons z zs => rfl
  | cons x xs ih =>
    cases b with
    | nil => simp_all [strLess]
    | cons y ys =>
      cases c with
      | nil => simp_all [strLess]
      | cons z zs =>
        simp only [strLess] at h1 h2 ⊢
        rcases lt_trichotomy x y with hxy | hxy | hxy
        · rcases lt_trichotomy y z with hyz | hyz | hyz
          · simp [lt_trans hxy hyz]
          · subst hyz; simp [hxy]
          · simp [hyz, lt_asymm hyz] at h2
        · subst hxy
          rcases lt_trichotomy x z with hyz | hyz | hyz
          · simp [hyz]
          · subst hyz
            simp only [lt_self_iff_false, if_false] at h1 h2 ⊢
            exact ih ys zs h1 h2
          · simp [hyz, lt_asymm hyz] at h2
        · simp [hxy, lt_asymm hxy] at h1

theorem strLe_total : IsTotal GoString (fun a b => strLe a b = true) where
  total a b := by
    simp only [strLe, Bool.not_eq_true']
    rcases strLess_trichotomy a b with h | h | h
    · exact Or.inl (strLess_asymm a b h)
    · subst h; exact Or.inl (strLess_irrefl a)
    · exact Or.inr (strLess_asymm b a h)

theorem strLe_trans : IsTrans GoString (fun a b => strLe a b = true) where
  trans a b c hab hbc := by
    simp only [strLe, Bool.not_eq_true'] at hab hbc ⊢
    cases hca : strLess c a with
    | false => rfl
    | true =>
      rcases strLess_trichotomy a b with h | h | h
      · rw [strLess_trans c a b hca h] at hbc; exact hbc
      · subst h; rw [hca] at hbc; exact hbc
      · rw [h] at hab; exact hab

theorem strLe_antisymm : IsAntisymm GoString (fun a b => strLe a b = true) where
  antisymm a b hab hba := by
    simp only [strLe, Bool.not_eq_true'] at hab hba
    rcases strLess_trichotomy a b with h | h | h
    · rw [h] at hba; cases hba
    · exact h
    · rw [h] at hab; cases hab

/-- `sort.Strings` returns its input sorted. -/
theorem sortStrings_sorted (keys : List GoString) :
    (sortStrings keys).Sorted (fun a b => strLe a b = true) :=
  haveI := strLe_total
  haveI := strLe_trans
  List.sorted_insertionSort _ keys

/-- `sort.Strings` returns a rearrangement of its input. -/
theorem sortStrings_perm (keys : List GoString) : (sortStrings keys).Perm keys :=
  List.perm_insertionSort _ keys

/-- The result of `sort.Strings` does not depend on the order of its input. -/
theorem sortStrings_of_perm (k1 k2 : List GoString) (h : k1.Perm k2) :
    sortStrings k1 = sortStrings k2 :=
  haveI := strLe_antisymm
  List.eq_of_perm_of_sorted
    (((sortStrings_perm k1).trans h).trans (sortStrings_perm k2).symm)
    (sortStrings_sorted k1) (sortStrings_sorted k2)

/-! ## `Values.Encode` as a join of fields -/

theorem intercalate_eq_nil (sep : GoString) (ps : List GoString) (hps : ∀ p ∈ ps, p ≠ [])
    (h : sep.intercalate ps = []) : ps = [] := by
  cases ps with
  | nil => rfl
  | cons p rest =>
    exfalso
    have hp : p ≠ [] := hps p (List.mem_cons_self _ _)
    cases rest with
    | nil => simp [List.intercalate, List.intersperse] at h; exact hp h
    | cons q rest2 =>
      simp [List.intercalate, List.intersperse] at h
      exact hp h.1

theorem intercalate_cons_cons (sep p q : GoString) (rest : List GoString) :
    sep.intercalate (p :: q :: rest) = p ++ sep ++ sep.intercalate (q :: rest) := by
  simp [List.intercalate, List.intersperse]

theorem intercalate_snoc (sep : GoString) (ps : List GoString) (p : GoString) (h : ps ≠ []) :
    sep.intercalate (ps ++ [p]) = sep.intercalate ps ++ sep ++ p := by
  induction ps with
  | nil => exact absurd rfl h
  | cons q rest ih =>
    cases rest with
    | nil => simp [List.intercalate, List.intersperse]
    | cons r rest2 =>
      have h1 := ih (by simp)
      rw [List.cons_append, List.cons_append, intercalate_cons_cons, ← List.cons_append, h1,
        intercalate_cons_cons]
      simp

/-- The fields of one key, as `Encode` writes them. -/
theorem encodeKey_eq (ke : GoString) (vs : List GoString) (ps : List GoString)
    (hps : ∀ p ∈ ps, p ≠ []) :
    encodeKey ke vs ([38].intercalate ps)
      = [38].intercalate (ps ++ vs.map (fun v => ke ++ [61] ++ QueryEscape v)) := by
  induction vs generalizing ps with
  | nil => simp [encodeKey]
  | cons v rest ih =>
    have hstep : encodeKey ke (v :: rest) ([38].intercalate ps)
        = encodeKey ke rest ([38].intercalate (ps ++ [ke ++ [61] ++ QueryEscape v])) := by
      unfold encodeKey
      simp only [List.foldl_cons]
      congr 1
      by_cases hnil : ps = []
      · subst hnil
        simp [List.intercalate, List.intersperse]
      · have hne : ([38] : GoString).intercalate ps ≠ [] :=
          fun h0 => hnil (intercalate_eq_nil _ ps hps h0)
        have hlen : (([38] : GoString).intercalate ps).length > 0 :=
          List.length_pos.mpr hne
        rw [intercalate_snoc _ ps _ hnil]
        simp [hlen]
    rw [hstep, ih]
    · simp
    · intro p hp
      rcases List.mem_append.mp hp with h1 | h1
      · exact hps p h1
      · simp only [List.mem_singleton] at h1
        subst h1
        simp

end Mercure
namespace Mercure

/-- The loop of `Encode` over the sorted keys. -/
theorem encodeLoop_eq (v : Values) (keys : List GoString) (ps : List GoString)
    (hps : ∀ p ∈ ps, p ≠ []) :
    keys.foldl (fun buf k => encodeKey (QueryEscape k) (Values.index v k) buf)
        ([38].intercalate ps)
      = [38].intercalate (ps ++ fieldsIn v keys) := by
  induction keys generalizing ps with
  | nil => simp [fieldsIn]
  | cons k rest ih =>
    simp only [List.foldl_cons]
    have hf : (fun x => QueryEscape k ++ [61] ++ QueryEscape x) = fieldOf k := rfl
    rw [encodeKey_eq _ _ ps hps, ih, hf]
    · simp [fieldsIn]
    · intro p hp
      rcases List.mem_append.mp hp with h1 | h1
      · exact hps p h1
      · obtain ⟨x, -, hx⟩ := List.mem_map.mp h1
        subst hx
        simp

/-- `Encode` writes the fields of the map, keys sorted, joined by `&`, whatever
the order in which `range` visits the keys. -/
theorem Values.Encode_eq (range : List GoString → List GoString) (v : Values)
    (h : (range (Values.keys v)).Perm (Values.keys v)) :
    Values.Encode range v = [38].intercalate (fieldsIn v (sortStrings (Values.keys v))) := by
  unfold Values.Encode
  simp only
  rw [sortStrings_of_perm _ _ h]
  have := encodeLoop_eq v (sortStrings (Values.keys v)) [] (by simp)
  simpa [List.intercalate] using this

set_option maxRecDepth 100000 in
theorem escapeByte_eq_spec (c : Byte) : escapeByte c = specEscapeByte c := by
  revert c
  decide

theorem QueryEscape_eq_spec (s : GoString) : QueryEscape s = specEscape s := by
  induction s with
  | nil => rfl
  | cons c rest ih =>
    simp only [QueryEscape, specEscape, List.flatMap_cons] at ih ⊢
    rw [ih, escapeByte_eq_spec]

end Mercure
namespace Mercure

/-- Visiting only the keys the map has, out of a list of keys, gives the same
fields: a key the map does not have contributes none. -/
theorem fieldsIn_filter (v : Values) (K : List GoString) :
    fieldsIn v (K.filter (fun k => decide (k ∈ Values.keys v))) = fieldsIn v K := by
  induction K with
  | nil => rfl
  | cons k rest ih =>
    unfold fieldsIn at ih ⊢
    by_cases hk : k ∈ Values.keys v
    · simp only [List.filter_cons, hk, decide_True, if_true, List.flatMap_cons, ih]
    · have h0 : Values.index v k = [] := Values.index_of_not_mem v k hk
      simp only [List.filter_cons, hk, decide_False, List.flatMap_cons, h0, List.map_nil,
        List.nil_append]
      simpa using ih

/-- Sorting the keys of a map whose keys all lie in a sorted list `K` visits the
keys of `K` that the map has, in the order of `K`. -/
theorem sortStrings_keys_eq_filter (v : Values) (K : List GoString)
    (hK : K.Sorted (fun a b => strLe a b = true)) (hKn : K.Nodup)
    (hv : (Values.keys v).Nodup) (hsub : ∀ k ∈ Values.keys v, k ∈ K) :
    sortStrings (Values.keys v) = K.filter (fun k => decide (k ∈ Values.keys v)) := by
  haveI := strLe_antisymm
  apply List.eq_of_perm_of_sorted _ (sortStrings_sorted _) (hK.filter _)
  apply (List.perm_ext_iff_of_nodup ((sortStrings_perm _).nodup_iff.mpr hv) (hKn.filter _)).mpr
  intro a
  rw [(sortStrings_perm (Values.keys v)).mem_iff]
  simp only [List.mem_filter, decide_eq_true_eq]
  exact ⟨fun h => ⟨hsub a h, h⟩, fun h => h.2⟩

theorem specKeys_sorted : specKeys.Sorted (fun a b => strLe a b = true) := by
  unfold specKeys
  simp only [List.sorted_cons, List.mem_cons, List.mem_singleton, forall_eq_or_imp, forall_eq,
    List.sorted_nil, List.not_mem_nil, false_implies, implies_true, and_true]
  decide

theorem specKeys_nodup : specKeys.Nodup := by decide

/-- The keys of the fields of an update lie among the six keys, each once. -/
theorem fieldsOf_keys (u : Update) :
    (Values.keys (fieldsOf u)).Nodup ∧ ∀ k ∈ Values.keys (fieldsOf u), k ∈ specKeys := by
  by_cases h1 : u.Targets = [] <;> by_cases h2 : u.Id = [] <;> by_cases h3 : u.Type_ = []
    <;> by_cases h4 : u.Retry > 0
    <;> simp +decide [fieldsOf, Values.keys, h1, h2, h3, h4]

/-- The six keys are written unescaped. -/
theorem QueryEscape_specKeys : ∀ k ∈ specKeys, QueryEscape k = k := by decide

/-- The fields in the order of the six keys are the pairs of the specification,
written `key=value` with the value escaped. -/
theorem fieldsIn_specKeys (v : Values) :
    fieldsIn v specKeys
      = (specPairs v).map (fun p => p.1 ++ ascii "=" ++ specEscape p.2) := by
  unfold fieldsIn specPairs
  rw [List.map_flatMap]
  apply List.flatMap_congr
  intro k hk
  rw [List.map_map]
  apply List.map_congr_left
  intro x _
  simp only [Function.comp, fieldOf, QueryEscape_specKeys k hk, QueryEscape_eq_spec]
  rfl

/-- The body `Encode` writes for the fields of an update is the body of the
specification, whatever the order in which `range` visits the keys. -/
theorem Encode_fieldsOf (range : List GoString → List GoString) (u : Update)
    (h : (range (Values.keys (fieldsOf u))).Perm (Values.keys (fieldsOf u))) :
    Values.Encode range (fieldsOf u) = specBody (fieldsOf u) := by
  rw [Values.Encode_eq range _ h,
    sortStrings_keys_eq_filter _ specKeys specKeys_sorted specKeys_nodup
      (fieldsOf_keys u).1 (fieldsOf_keys u).2,
    fieldsIn_filter, fieldsIn_specKeys]
  rfl

end Mercure
namespace Mercure

/-! ## The encoding can be read back -/

set_option maxRecDepth 100000 in
theorem unhex_upperhex : ∀ c : Byte,
    (Fin.ofNat (unhex (upperhex (c.val / 16)) * 16 + unhex (upperhex (c.val % 16))) : Byte) = c := by
  decide

set_option maxRecDepth 100000 in
theorem not_shouldEscape_plain : ∀ c : Byte, shouldEscape c = false → c ≠ 43 ∧ c ≠ 37 := by
  decide

/-- Reading back what `escape` wrote for a byte gives the byte. -/
theorem unescapeHead_escapeByte (c : Byte) (r : GoString) :
    unescapeHead (escapeByte c ++ r) = some (c, r) := by
  unfold escapeByte
  by_cases h32 : c = 32
  · simp [h32, unescapeHead]
  · by_cases hesc : shouldEscape c = true
    · simp only [h32, hesc, if_false, if_true, List.cons_append, List.nil_append, unescapeHead]
      have h1 : ¬ ((37 : Byte) = 43) := by decide
      simp only [h1, if_false, if_true, unhex_upperhex c]
    · have hesc2 : shouldEscape c = false := by simpa using hesc
      have hp := not_shouldEscape_plain c hesc2
      simp [h32, hesc2, unescapeHead, hp.1, hp.2]

theorem QueryEscape_injective (a b : GoString) (h : QueryEscape a = QueryEscape b) : a = b := by
  induction a generalizing b with
  | nil =>
    cases b with
    | nil => rfl
    | cons y ys =>
      have h1 := congrArg unescapeHead h
      rw [QueryEscape, QueryEscape, unescapeHead_escapeByte] at h1
      simp [unescapeHead] at h1
  | cons x xs ih =>
    cases b with
    | nil =>
      have h1 := congrArg unescapeHead h
      rw [QueryEscape, QueryEscape, unescapeHead_escapeByte] at h1
      simp [unescapeHead] at h1
    | cons y ys =>
      have h1 := congrArg unescapeHead h
      rw [QueryEscape, QueryEscape, unescapeHead_escapeByte, unescapeHead_escapeByte] at h1
      simp only [Option.some.injEq, Prod.mk.injEq] at h1
      rw [h1.1, ih ys h1.2]

set_option maxRecDepth 100000 in
theorem escapeByte_no_sep : ∀ c : Byte, 38 ∉ escapeByte c ∧ 61 ∉ escapeByte c := by
  decide

/-- An escaped string holds neither `&` nor `=`. -/
theorem QueryEscape_no_sep (s : GoString) : 38 ∉ QueryEscape s ∧ 61 ∉ QueryEscape s := by
  induction s with
  | nil => simp [QueryEscape]
  | cons c rest ih =>
    simp only [QueryEscape, List.mem_append, not_or]
    exact ⟨⟨(escapeByte_no_sep c).1, ih.1⟩, ⟨(escapeByte_no_sep c).2, ih.2⟩⟩

/-- A `key=value` field determines its key and its value, when the keys hold no `=`. -/
theorem field_split (k1 k2 e1 e2 : GoString) (h1 : (61 : Byte) ∉ k1) (h2 : (61 : Byte) ∉ k2)
    (h : k1 ++ [61] ++ e1 = k2 ++ [61] ++ e2) : k1 = k2 ∧ e1 = e2 := by
  induction k1 generalizing k2 with
  | nil =>
    cases k2 with
    | nil => simpa using h
    | cons y ys =>
      simp only [List.nil_append, List.cons_append, List.cons.injEq] at h
      exact absurd (h.1 ▸ List.mem_cons_self _ _) h2
  | cons x xs ih =>
    cases k2 with
    | nil =>
      simp only [List.nil_append, List.cons_append, List.cons.injEq] at h
      exact absurd (h.1 ▸ List.mem_cons_self _ _) h1
    | cons y ys =>
      simp only [List.cons_append, List.cons.injEq] at h
      have := ih ys (fun hm => h1 (List.mem_cons_of_mem _ hm))
        (fun hm => h2 (List.mem_cons_of_mem _ hm)) (by simpa using h.2)
      exact ⟨by rw [h.1, this.1], this.2⟩

/-- A map that is one-to-one on the members of two lists is one-to-one on the lists. -/
theorem map_eq_of_inj {α β : Type} (f : α → β) (P : α → Prop)
    (hf : ∀ a b, P a → P b → f a = f b → a = b) (l1 l2 : List α)
    (h1 : ∀ a ∈ l1, P a) (h2 : ∀ a ∈ l2, P a) (h : l1.map f = l2.map f) : l1 = l2 := by
  induction l1 generalizing l2 with
  | nil =>
    cases l2 with
    | nil => rfl
    | cons y ys => simp at h
  | cons x xs ih =>
    cases l2 with
    | nil => simp at h
    | cons y ys =>
      simp only [List.map_cons, List.cons.injEq] at h
      have hxy := hf x y (h1 x (List.mem_cons_self _ _)) (h2 y (List.mem_cons_self _ _)) h.1
      have := ih ys (fun a ha => h1 a (List.mem_cons_of_mem _ ha))
        (fun a ha => h2 a (List.mem_cons_of_mem _ ha)) h.2
      rw [hxy, this]

end Mercure
namespace Mercure

/-! ## The fields of an update, key by key -/

/-- What the fields of an update hold under each of the six keys. -/
theorem fieldsOf_index (u : Update) :
    Values.index (fieldsOf u) (ascii "topic") = u.Topics
    ∧ Values.index (fieldsOf u) (ascii "data") = [u.Data]
    ∧ Values.index (fieldsOf u) (ascii "target") = u.Targets
    ∧ Values.index (fieldsOf u) (ascii "id") = (if u.Id = [] then [] else [u.Id])
    ∧ Values.index (fieldsOf u) (ascii "type") = (if u.Type_ = [] then [] else [u.Type_])
    ∧ Values.index (fieldsOf u) (ascii "retry")
        = (if u.Retry > 0 then [intToString u.Retry] else []) := by
  by_cases h1 : u.Targets = [] <;> by_cases h2 : u.Id = [] <;> by_cases h3 : u.Type_ = []
    <;> by_cases h4 : u.Retry > 0
    <;> simp +decide [fieldsOf, Values.index, h1, h2, h3, h4]

theorem Values.has_iff_mem_keys (v : Values) (k : GoString) :
    Values.has v k = true ↔ k ∈ Values.keys v := by
  induction v with
  | nil => simp [Values.has, Values.keys]
  | cons e rest ih =>
    obtain ⟨k1, vs⟩ := e
    by_cases h : k1 = k
    · simp [Values.has, Values.keys, h]
    · have h2 : ¬ k = k1 := fun h3 => h h3.symm
      simp only [Values.has, h, if_false, ih, Values.keys, List.map_cons, List.mem_cons, h2,
        false_or]

/-- Which of the six keys the fields of an update have. -/
theorem fieldsOf_has (u : Update) :
    Values.has (fieldsOf u) (ascii "topic") = true
    ∧ Values.has (fieldsOf u) (ascii "data") = true
    ∧ (Values.has (fieldsOf u) (ascii "target") = true ↔ u.Targets ≠ [])
    ∧ (Values.has (fieldsOf u) (ascii "id") = true ↔ u.Id ≠ [])
    ∧ (Values.has (fieldsOf u) (ascii "type") = true ↔ u.Type_ ≠ [])
    ∧ (Values.has (fieldsOf u) (ascii "retry") = true ↔ u.Retry > 0) := by
  by_cases h1 : u.Targets = [] <;> by_cases h2 : u.Id = [] <;> by_cases h3 : u.Type_ = []
    <;> by_cases h4 : u.Retry > 0
    <;> simp +decide [fieldsOf, Values.has, h1, h2, h3, h4]

/-! ## From the body back to the fields -/

theorem pairs_filter_of_not_mem (d : Values) (K : List GoString) (k : GoString) (hk : k ∉ K) :
    (K.flatMap (fun x => (Values.index d x).map (fun v => (x, v)))).filter
      (fun p => decide (p.1 = k)) = [] := by
  rw [List.filter_eq_nil_iff]
  intro p hp
  obtain ⟨x, hx, hpx⟩ := List.mem_flatMap.mp hp
  obtain ⟨v, -, hv⟩ := List.mem_map.mp hpx
  subst hv
  simp only [decide_eq_true_eq]
  intro h
  exact hk (h ▸ hx)

/-- The values of a key can be read off the list of pairs. -/
theorem pairs_filter (d : Values) (K : List GoString) (hK : K.Nodup) (k : GoString)
    (hk : k ∈ K) :
    ((K.flatMap (fun x => (Values.index d x).map (fun v => (x, v)))).filter
      (fun p => decide (p.1 = k))).map Prod.snd = Values.index d k := by
  induction K with
  | nil => simp at hk
  | cons a rest ih =>
    rw [List.nodup_cons] at hK
    rw [List.flatMap_cons, List.filter_append, List.map_append]
    by_cases hak : a = k
    · subst hak
      rw [pairs_filter_of_not_mem d rest a hK.1]
      simp [List.filter_map, Function.comp_def]
    · have hk2 : k ∈ rest := by
        rcases List.mem_cons.mp hk with h | h
        · exact absurd h.symm hak
        · exact h
      rw [ih hK.2 hk2]
      simp [List.filter_map, Function.comp_def, hak]

theorem specPairs_index (d1 d2 : Values) (h : specPairs d1 = specPairs d2) (k : GoString)
    (hk : k ∈ specKeys) : Values.index d1 k = Values.index d2 k := by
  have e1 := pairs_filter d1 specKeys specKeys_nodup k hk
  have e2 := pairs_filter d2 specKeys specKeys_nodup k hk
  unfold specPairs at h
  rw [← e1, ← e2, h]

theorem specPairs_key (d : Values) : ∀ p ∈ specPairs d, p.1 ∈ specKeys := by
  intro p hp
  obtain ⟨x, hx, hpx⟩ := List.mem_flatMap.mp hp
  obtain ⟨v, -, hv⟩ := List.mem_map.mp hpx
  subst hv
  exact hx

theorem specKeys_no_sep : ∀ k ∈ specKeys, (38 : Byte) ∉ k ∧ (61 : Byte) ∉ k := by decide

/-- The written form of a pair determines the pair. -/
theorem specField_injective (p q : GoString × GoString) (hp : p.1 ∈ specKeys)
    (hq : q.1 ∈ specKeys)
    (h : p.1 ++ ascii "=" ++ specEscape p.2 = q.1 ++ ascii "=" ++ specEscape q.2) : p = q := by
  have h61 : ascii "=" = [61] := by decide
  rw [h61, ← QueryEscape_eq_spec, ← QueryEscape_eq_spec] at h
  have := field_split _ _ _ _ (specKeys_no_sep _ hp).2 (specKeys_no_sep _ hq).2 h
  exact Prod.ext this.1 (QueryEscape_injective _ _ this.2)

/-- No written pair holds the separator `&`. -/
theorem specField_no_amp (p : GoString × GoString) (hp : p.1 ∈ specKeys) :
    (38 : Byte) ∉ p.1 ++ ascii "=" ++ specEscape p.2 := by
  have h61 : ascii "=" = [61] := by decide
  rw [h61, ← QueryEscape_eq_spec]
  simp only [List.mem_append, not_or]
  exact ⟨⟨(specKeys_no_sep _ hp).1, by decide⟩, (QueryEscape_no_sep _).1⟩

/-- The body determines the list of pairs, when there is at least one pair. -/
theorem specBody_injective (d1 d2 : Values) (h1 : specPairs d1 ≠ []) (h2 : specPairs d2 ≠ [])
    (h : specBody d1 = specBody d2) : specPairs d1 = specPairs d2 := by
  have hamp : ascii "&" = [38] := by decide
  unfold specBody at h
  rw [hamp] at h
  have s1 : (([38] : GoString).intercalate
      ((specPairs d1).map (fun p => p.1 ++ ascii "=" ++ specEscape p.2))).splitOn 38
      = (specPairs d1).map (fun p => p.1 ++ ascii "=" ++ specEscape p.2) := by
    apply List.splitOn_intercalate
    · intro l hl
      obtain ⟨p, hp, hpl⟩ := List.mem_map.mp hl
      subst hpl
      exact specField_no_amp p (specPairs_key d1 p hp)
    · simpa using h1
  have s2 : (([38] : GoString).intercalate
      ((specPairs d2).map (fun p => p.1 ++ ascii "=" ++ specEscape p.2))).splitOn 38
      = (specPairs d2).map (fun p => p.1 ++ ascii "=" ++ specEscape p.2) := by
    apply List.splitOn_intercalate
    · intro l hl
      obtain ⟨p, hp, hpl⟩ := List.mem_map.mp hl
      subst hpl
      exact specField_no_amp p (specPairs_key d2 p hp)
    · simpa using h2
  rw [h, s2] at s1
  exact map_eq_of_inj _ (fun p => p.1 ∈ specKeys) specField_injective _ _
    (specPairs_key d1) (specPairs_key d2) s1.symm

/-- The fields of an update give at least one pair, the data. -/
theorem specPairs_fieldsOf_ne_nil (u : Update) :
    specPairs (fieldsOf u) ≠ [] := by
  have h := (fieldsOf_index u).2.1
  unfold specPairs specKeys
  rw [List.flatMap_cons, h]
  simp

/-- Two updates whose fields give the same body agree on topics,
data, targets, id and type. -/
theorem fieldsOf_body_injective (u1 u2 : Update)
    (h : specBody (fieldsOf u1) = specBody (fieldsOf u2)) :
    u1.Topics = u2.Topics ∧ u1.Data = u2.Data ∧ u1.Targets = u2.Targets ∧ u1.Id = u2.Id
      ∧ u1.Type_ = u2.Type_ := by
  have hp := specBody_injective _ _ (specPairs_fieldsOf_ne_nil u1)
    (specPairs_fieldsOf_ne_nil u2) h
  have i1 := fieldsOf_index u1
  have i2 := fieldsOf_index u2
  have ktopic := specPairs_index _ _ hp (ascii "topic") (by decide)
  have kdata := specPairs_index _ _ hp (ascii "data") (by decide)
  have ktarget := specPairs_index _ _ hp (ascii "target") (by decide)
  have kid := specPairs_index _ _ hp (ascii "id") (by decide)
  have ktype := specPairs_index _ _ hp (ascii "type") (by decide)
  rw [i1.1, i2.1] at ktopic
  rw [i1.2.1, i2.2.1] at kdata
  rw [i1.2.2.1, i2.2.2.1] at ktarget
  rw [i1.2.2.2.1, i2.2.2.2.1] at kid
  rw [i1.2.2.2.2.1, i2.2.2.2.2.1] at ktype
  refine ⟨ktopic, by simpa using kdata, ktarget, ?_, ?_⟩
  · by_cases a : u1.Id = [] <;> by_cases b : u2.Id = [] <;> simp_all
  · by_cases a : u1.Type_ = [] <;> by_cases b : u2.Type_ = [] <;> simp_all

/-- The pairs of the fields of an update, in terms of the update: data, id,
retry, the targets in their order, the topics in their order, type. -/
theorem specPairs_fieldsOf (u : Update) :
    specPairs (fieldsOf u)
      = [(ascii "data", u.Data)]
        ++ (if u.Id = [] then [] else [(ascii "id", u.Id)])
        ++ (Values.index (fieldsOf u) (ascii "retry")).map (fun v => (ascii "retry", v))
        ++ u.Targets.map (fun v => (ascii "target", v))
        ++ u.Topics.map (fun v => (ascii "topic", v))
        ++ (if u.Type_ = [] then [] else [(ascii "type", u.Type_)]) := by
  have hi := fieldsOf_index u
  unfold specPairs specKeys
  simp only [List.flatMap_cons, List.flatMap_nil, hi.1, hi.2.1, hi.2.2.1, hi.2.2.2.1,
    hi.2.2.2.2.1, List.append_nil, List.append_assoc]
  by_cases h2 : u.Id = [] <;> by_cases h3 : u.Type_ = [] <;> simp [h2, h3]

end Mercure
namespace Mercure

/-! ## The calls `Publish` makes -/

/-- The header names `Publish` sets are in canonical form. -/
theorem canonical_names :
    CanonicalMIMEHeaderKey (ascii "User-Agent") = ascii "User-Agent"
    ∧ CanonicalMIMEHeaderKey (ascii "Authorization") = ascii "Authorization"
    ∧ CanonicalMIMEHeaderKey (ascii "Content-Type") = ascii "Content-Type"
    ∧ CanonicalMIMEHeaderKey (ascii "Content-Length") = ascii "Content-Length" := by
  decide

/-- The requests `Publish` hands to a client, for an update that passes
validation: none when the URL does not parse, one otherwise. -/
theorem Publish_sent (w : World) (c : Publisher) (u : Update) (h : u.Valid) :
    (Publisher.Publish w c u).sent =
      match w.urlParse (URL.String c.url) with
      | .error _ => []
      | .ok x =>
        [{ Method := ascii "POST", URL := x,
           Header := Header.Set (Header.Set (Header.Set (Header.Set []
             (ascii "User-Agent") (ascii "go-mercure/dev"))
             (ascii "Authorization") (ascii "Bearer " ++ c.jwt))
             (ascii "Content-Type") (ascii "application/x-www-form-urlencoded"))
             (ascii "Content-Length")
             (strconv.Itoa (Values.Encode (w.mapRange 1) (fieldsOf u)).length),
           Body := Values.Encode (w.mapRange 0) (fieldsOf u) }] := by
  unfold Publisher.Publish
  rw [getData_valid u h]
  simp only [http.NewRequest]
  cases hp : w.urlParse (URL.String c.url) with
  | error e => simp [Outcome.sent]
  | ok x =>
    simp only
    cases hd : Client.Do w { Transport := none } _ with
    | error e => simp [Outcome.sent]
    | ok resp =>
      obtain ⟨sc, hdr, b, e⟩ := resp
      cases e <;> simp [Outcome.sent]

end Mercure
namespace Mercure

/-! ## The claims -/

/-- C1: for every update whose `Topics` is empty and every publisher, `Publish`
returns the empty identifier with the error `Missing topic`, and makes no outside
call: no request is built, none is sent. -/
theorem C1_missing_topic (w : World) (c : Publisher) (u : Update) (h : u.Topics = []) :
    (Publisher.Publish w c u).id = []
    ∧ (Publisher.Publish w c u).err = some (errors.New (ascii "Missing topic"))
    ∧ (Publisher.Publish w c u).calls = [] := by
  have hg : getData u = ([], some (errors.New (ascii "Missing topic"))) := by
    simp [getData, h]
  unfold Publisher.Publish
  rw [hg]
  exact ⟨rfl, rfl, rfl⟩

theorem C1_missing_topic_witness :
    noTopicUpdate.Topics = []
    ∧ (Publisher.Publish testWorld testPublisher noTopicUpdate).id = []
    ∧ (Publisher.Publish testWorld testPublisher noTopicUpdate).err
        = some (errors.New (ascii "Missing topic"))
    ∧ (Publisher.Publish testWorld testPublisher noTopicUpdate).calls = [] :=
  ⟨rfl, C1_missing_topic testWorld testPublisher noTopicUpdate rfl⟩

/-- C2, as stated, fails: an update with empty `Data` and empty `Topics` is
answered with `Missing topic`, not with `Missing data`. -/
theorem C2_counterexample :
    emptyUpdate.Data = []
    ∧ (Publisher.Publish testWorld testPublisher emptyUpdate).err
        = some (errors.New (ascii "Missing topic"))
    ∧ (Publisher.Publish testWorld testPublisher emptyUpdate).err
        ≠ some (errors.New (ascii "Missing data")) := by
  decide

/-- C2, amended: for every update with at least one topic whose `Data` is empty,
and every publisher, `Publish` returns the empty identifier with the error
`Missing data`, and makes no outside call. -/
theorem C2_missing_data (w : World) (c : Publisher) (u : Update) (hT : u.Topics ≠ [])
    (hD : u.Data = []) :
    (Publisher.Publish w c u).id = []
    ∧ (Publisher.Publish w c u).err = some (errors.New (ascii "Missing data"))
    ∧ (Publisher.Publish w c u).calls = [] := by
  have hg : getData u = ([], some (errors.New (ascii "Missing data"))) := by
    simp [getData, hT, hD]
  unfold Publisher.Publish
  rw [hg]
  exact ⟨rfl, rfl, rfl⟩

theorem C2_missing_data_witness :
    noDataUpdate.Topics ≠ [] ∧ noDataUpdate.Data = []
    ∧ (Publisher.Publish testWorld testPublisher noDataUpdate).id = []
    ∧ (Publisher.Publish testWorld testPublisher noDataUpdate).err
        = some (errors.New (ascii "Missing data"))
    ∧ (Publisher.Publish testWorld testPublisher noDataUpdate).calls = [] :=
  ⟨by decide, rfl, C2_missing_data testWorld testPublisher noDataUpdate (by decide) rfl⟩

/-- C3: for every update with topics and data, `getData` succeeds, and its fields
are: under `topic` the list `Topics`; under `data` the one string `Data`; under
`target` the list `Targets`, the key being absent when there is no target; `id`
present iff `Id` is not empty, then holding `[Id]`; `type` likewise; `retry`
present iff `Retry > 0`, then holding one value; and no other key. -/
theorem C3_getData_fields (u : Update) (h : u.Valid) :
    ∃ d, getData u = (d, none)
      ∧ Values.has d (ascii "topic") = true ∧ Values.index d (ascii "topic") = u.Topics
      ∧ Values.has d (ascii "data") = true ∧ Values.index d (ascii "data") = [u.Data]
      ∧ (Values.has d (ascii "target") = true ↔ u.Targets ≠ [])
      ∧ Values.index d (ascii "target") = u.Targets
      ∧ (Values.has d (ascii "id") = true ↔ u.Id ≠ [])
      ∧ (u.Id ≠ [] → Values.index d (ascii "id") = [u.Id])
      ∧ (Values.has d (ascii "type") = true ↔ u.Type_ ≠ [])
      ∧ (u.Type_ ≠ [] → Values.index d (ascii "type") = [u.Type_])
      ∧ (Values.has d (ascii "retry") = true ↔ u.Retry > 0)
      ∧ (u.Retry > 0 → (Values.index d (ascii "retry")).length = 1)
      ∧ (Values.keys d).Nodup
      ∧ ∀ k, Values.has d k = true →
          k ∈ [ascii "topic", ascii "data", ascii "target", ascii "id", ascii "type",
            ascii "retry"] := by
  refine ⟨fieldsOf u, getData_valid u h, ?_⟩
  have hi := fieldsOf_index u
  have hh := fieldsOf_has u
  refine ⟨hh.1, hi.1, hh.2.1, hi.2.1, hh.2.2.1, hi.2.2.1, hh.2.2.2.1, ?_, hh.2.2.2.2.1, ?_,
    hh.2.2.2.2.2, ?_, (fieldsOf_keys u).1, ?_⟩
  · intro h1
    rw [hi.2.2.2.1, if_neg h1]
  · intro h1
    rw [hi.2.2.2.2.1, if_neg h1]
  · intro h1
    rw [hi.2.2.2.2.2, if_pos h1]
    rfl
  · intro k hk
    have := (fieldsOf_keys u).2 k ((Values.has_iff_mem_keys _ k).mp hk)
    simp only [specKeys, List.mem_cons, List.mem_singleton, List.not_mem_nil, or_false] at this
    rcases this with h1 | h1 | h1 | h1 | h1 | h1 <;> subst h1 <;>
      simp only [List.mem_cons, true_or, or_true]

theorem C3_getData_fields_witness :
    multiTargetUpdate.Valid ∧
    ∃ d, getData multiTargetUpdate = (d, none)
      ∧ Values.has d (ascii "topic") = true
      ∧ Values.index d (ascii "topic") = multiTargetUpdate.Topics
      ∧ Values.has d (ascii "data") = true
      ∧ Values.index d (ascii "data") = [multiTargetUpdate.Data]
      ∧ (Values.has d (ascii "target") = true ↔ multiTargetUpdate.Targets ≠ [])
      ∧ Values.index d (ascii "target") = multiTargetUpdate.Targets
      ∧ (Values.has d (ascii "id") = true ↔ multiTargetUpdate.Id ≠ [])
      ∧ (multiTargetUpdate.Id ≠ [] → Values.index d (ascii "id") = [multiTargetUpdate.Id])
      ∧ (Values.has d (ascii "type") = true ↔ multiTargetUpdate.Type_ ≠ [])
      ∧ (multiTargetUpdate.Type_ ≠ [] →
          Values.index d (ascii "type") = [multiTargetUpdate.Type_])
      ∧ (Values.has d (ascii "retry") = true ↔ multiTargetUpdate.Retry > 0)
      ∧ (multiTargetUpdate.Retry > 0 → (Values.index d (ascii "retry")).length = 1)
      ∧ (Values.keys d).Nodup
      ∧ ∀ k, Values.has d k = true →
          k ∈ [ascii "topic", ascii "data", ascii "target", ascii "id", ascii "type",
            ascii "retry"] :=
  ⟨by decide, C3_getData_fields multiTargetUpdate (by decide)⟩

/-- C4 fails on the code: for the update of `TestPublishCompleteUpdate`, with
`Retry = 5`, `getData` stores under `retry` the one-byte string of code point 5,
not the decimal string `5`, and the body holds `retry=%05`. For every `Retry`
from 1 to 127 the stored string is the single byte `Retry`, never the decimal
representation. -/
theorem C4_retry_is_code_point :
    completeUpdate.Valid ∧ completeUpdate.Retry = 5
    ∧ Values.index (getData completeUpdate).1 (ascii "retry") = [[5]]
    ∧ strconv.Itoa completeUpdate.Retry = ascii "5"
    ∧ Values.index (getData completeUpdate).1 (ascii "retry")
        ≠ [strconv.Itoa completeUpdate.Retry]
    ∧ Values.Encode id (getData completeUpdate).1
        = ascii ("data=Hello+World&id=id&retry=%05&target=target1"
            ++ "&topic=http%3A%2F%2Flocalhost%2Ftest&type=type")
    ∧ ∀ r : Fin 128, 0 < r.val →
        Values.index (getData { minimalUpdate with Retry := r.val }).1 (ascii "retry")
          = [[Fin.ofNat r.val]]
        ∧ Values.index (getData { minimalUpdate with Retry := r.val }).1 (ascii "retry")
          ≠ [strconv.Itoa r.val] := by
  decide

end Mercure
namespace Mercure

/-- C5: for every update that passes validation, the body `Publish` builds its
request with, and sends, is the body of the specification: the pairs `key=value`
joined by `&`, keys in ascending alphabetical order (data, id, retry, target,
topic, type), the values of a key in their input order, each value form-escaped. The update of `TestPublishMinimalUpdate` gives
`data=Hello+World&topic=http%3A%2F%2Flocalhost%2Ftest`, 52 bytes long. -/
theorem C5_body (w : World) (c : Publisher) (u : Update) (hw : w.WellFormed) (h : u.Valid) :
    Values.Encode (w.mapRange 0) (getData u).1 = specBody (getData u).1
    ∧ specPairs (getData u).1
        = [(ascii "data", u.Data)]
          ++ (if u.Id = [] then [] else [(ascii "id", u.Id)])
          ++ (Values.index (getData u).1 (ascii "retry")).map (fun v => (ascii "retry", v))
          ++ u.Targets.map (fun v => (ascii "target", v))
          ++ u.Topics.map (fun v => (ascii "topic", v))
          ++ (if u.Type_ = [] then [] else [(ascii "type", u.Type_)])
    ∧ (∃ rest, (Publisher.Publish w c u).calls
        = Call.newRequest (ascii "POST") (URL.String c.url) (specBody (getData u).1) :: rest)
    ∧ (∀ r ∈ (Publisher.Publish w c u).sent, r.Body = specBody (getData u).1)
    ∧ ((∃ x, w.urlParse (URL.String c.url) = .ok x) → (Publisher.Publish w c u).sent ≠ [])
    ∧ Values.Encode (w.mapRange 0) (getData minimalUpdate).1
        = ascii "data=Hello+World&topic=http%3A%2F%2Flocalhost%2Ftest"
    ∧ (Values.Encode (w.mapRange 0) (getData minimalUpdate).1).length = 52 := by
  have hb : Values.Encode (w.mapRange 0) (fieldsOf u) = specBody (fieldsOf u) :=
    Encode_fieldsOf _ u (hw 0 _)
  have hm : Values.Encode (w.mapRange 0) (getData minimalUpdate).1
      = ascii "data=Hello+World&topic=http%3A%2F%2Flocalhost%2Ftest" := by
    rw [getData_valid minimalUpdate (by decide), Encode_fieldsOf _ minimalUpdate (hw 0 _)]
    decide
  have hs := Publish_sent w c u h
  refine ⟨?_, ?_, ?_, ?_, ?_, hm, ?_⟩
  · rw [getData_valid u h]
    exact hb
  · rw [getData_valid u h]
    exact specPairs_fieldsOf u
  · unfold Publisher.Publish
    rw [getData_valid u h]
    simp only [hb]
    cases hp : http.NewRequest w (ascii "POST") (URL.String c.url) (specBody (fieldsOf u)) with
    | error e => exact ⟨_, rfl⟩
    | ok r0 =>
      simp only
      cases hd : Client.Do w { Transport := none } _ with
      | error e => exact ⟨_, rfl⟩
      | ok resp =>
        obtain ⟨sc, hdr, b, e⟩ := resp
        cases e <;> exact ⟨_, rfl⟩
  · intro r hr
    rw [hs] at hr
    rw [getData_valid u h]
    cases hp : w.urlParse (URL.String c.url) with
    | error e => simp [hp] at hr
    | ok x =>
      simp only [hp, List.mem_singleton] at hr
      rw [hr]
      exact hb
  · rintro ⟨x, hx⟩
    rw [hs, hx]
    simp
  · rw [hm]
    decide

theorem C5_body_witness :
    testWorld.WellFormed ∧ minimalUpdate.Valid
    ∧ Values.Encode (testWorld.mapRange 0) (getData minimalUpdate).1
        = specBody (getData minimalUpdate).1
    ∧ specPairs (getData minimalUpdate).1
        = [(ascii "data", minimalUpdate.Data)]
          ++ (if minimalUpdate.Id = [] then [] else [(ascii "id", minimalUpdate.Id)])
          ++ (Values.index (getData minimalUpdate).1 (ascii "retry")).map (fun v => (ascii "retry", v))
          ++ minimalUpdate.Targets.map (fun v => (ascii "target", v))
          ++ minimalUpdate.Topics.map (fun v => (ascii "topic", v))
          ++ (if minimalUpdate.Type_ = [] then [] else [(ascii "type", minimalUpdate.Type_)])
    ∧ (∃ rest, (Publisher.Publish testWorld testPublisher minimalUpdate).calls
        = Call.newRequest (ascii "POST") (URL.String testPublisher.url)
            (specBody (getData minimalUpdate).1) :: rest)
    ∧ (∀ r ∈ (Publisher.Publish testWorld testPublisher minimalUpdate).sent,
        r.Body = specBody (getData minimalUpdate).1)
    ∧ ((∃ x, testWorld.urlParse (URL.String testPublisher.url) = .ok x) →
        (Publisher.Publish testWorld testPublisher minimalUpdate).sent ≠ [])
    ∧ Values.Encode (testWorld.mapRange 0) (getData minimalUpdate).1
        = ascii "data=Hello+World&topic=http%3A%2F%2Flocalhost%2Ftest"
    ∧ (Values.Encode (testWorld.mapRange 0) (getData minimalUpdate).1).length = 52 :=
  ⟨fun _ keys => List.reverse_perm keys, by decide,
    C5_body testWorld testPublisher minimalUpdate (fun _ keys => List.reverse_perm keys)
      (by decide)⟩

/-- C6: for every publisher and every update that passes validation, the
`Content-Length` header of the request `Publish` sends is the decimal
representation of the byte length of the body of that request: the two calls of
`Encode`, whatever the order in which each ranges over the map, give the same
string. -/
theorem C6_content_length (w : World) (c : Publisher) (u : Update) (hw : w.WellFormed)
    (h : u.Valid) :
    (∀ r ∈ (Publisher.Publish w c u).sent,
        Header.Get r.Header (ascii "Content-Length") = strconv.Itoa r.Body.length)
    ∧ Values.Encode (w.mapRange 1) (getData u).1 = Values.Encode (w.mapRange 0) (getData u).1
    ∧ ((∃ x, w.urlParse (URL.String c.url) = .ok x) →
        (Publisher.Publish w c u).sent ≠ []) := by
  have hs := Publish_sent w c u h
  have h01 : Values.Encode (w.mapRange 1) (fieldsOf u)
      = Values.Encode (w.mapRange 0) (fieldsOf u) := by
    rw [Encode_fieldsOf _ u (hw 1 _), Encode_fieldsOf _ u (hw 0 _)]
  refine ⟨?_, ?_, ?_⟩
  · intro r hr
    rw [hs] at hr
    cases hp : w.urlParse (URL.String c.url) with
    | error e => simp [hp] at hr
    | ok x =>
      simp only [hp, List.mem_singleton] at hr
      rw [hr]
      simp only [h01, Header.Get, Header.Set, canonical_names.2.2.2]
      generalize strconv.Itoa ((Values.Encode (w.mapRange 0) (fieldsOf u)).length : Int) = n
      simp +decide [Values.store, Values.index, canonical_names]
  · rw [getData_valid u h]
    exact h01
  · rintro ⟨x, hx⟩
    rw [hs, hx]
    simp

theorem C6_content_length_witness :
    testWorld.WellFormed ∧ completeUpdate.Valid
    ∧ (∀ r ∈ (Publisher.Publish testWorld testPublisher completeUpdate).sent,
        Header.Get r.Header (ascii "Content-Length") = strconv.Itoa r.Body.length)
    ∧ Values.Encode (testWorld.mapRange 1) (getData completeUpdate).1
        = Values.Encode (testWorld.mapRange 0) (getData completeUpdate).1
    ∧ ((∃ x, testWorld.urlParse (URL.String testPublisher.url) = .ok x) →
        (Publisher.Publish testWorld testPublisher completeUpdate).sent ≠ []) :=
  ⟨fun _ keys => List.reverse_perm keys, by decide,
    C6_content_length testWorld testPublisher completeUpdate
      (fun _ keys => List.reverse_perm keys) (by decide)⟩

/-- C7: for every publisher built by `NewPublisher(url, jwt, client)` and every
update that passes validation, the request `Publish` sends has the header
`Authorization` with the value `Bearer ` followed by `jwt`, unchanged. -/
theorem C7_authorization (w : World) (url : URL) (jwt : GoString) (client : Option Client)
    (u : Update) (h : u.Valid) :
    (∀ r ∈ (Publisher.Publish w (NewPublisher url jwt client) u).sent,
        Header.Get r.Header (ascii "Authorization") = ascii "Bearer " ++ jwt)
    ∧ ((∃ x, w.urlParse (URL.String url) = .ok x) →
        (Publisher.Publish w (NewPublisher url jwt client) u).sent ≠ []) := by
  have hs := Publish_sent w (NewPublisher url jwt client) u h
  have hj : (NewPublisher url jwt client).jwt = jwt := rfl
  have hu : (NewPublisher url jwt client).url = url := rfl
  rw [hj, hu] at hs
  refine ⟨?_, ?_⟩
  · intro r hr
    rw [hs] at hr
    cases hp : w.urlParse (URL.String url) with
    | error e => simp [hp] at hr
    | ok x =>
      simp only [hp, List.mem_singleton] at hr
      rw [hr]
      simp only [Header.Get, Header.Set, canonical_names.2.2.2, canonical_names.2.2.1,
        canonical_names.2.1, canonical_names.1]
      generalize strconv.Itoa ((Values.Encode (w.mapRange 1) (fieldsOf u)).length : Int) = n
      generalize ascii "Bearer " ++ jwt = a
      simp +decide [Values.store, Values.index]
  · rintro ⟨x, hx⟩
    rw [hs, hx]
    simp

theorem C7_authorization_witness :
    minimalUpdate.Valid
    ∧ (∀ r ∈ (Publisher.Publish testWorld
          (NewPublisher hubURL (ascii "jwt-token") (some refusingClient)) minimalUpdate).sent,
        Header.Get r.Header (ascii "Authorization") = ascii "Bearer " ++ ascii "jwt-token")
    ∧ ((∃ x, testWorld.urlParse (URL.String hubURL) = .ok x) →
        (Publisher.Publish testWorld
          (NewPublisher hubURL (ascii "jwt-token") (some refusingClient)) minimalUpdate).sent
          ≠ []) :=
  ⟨by decide, C7_authorization testWorld hubURL (ascii "jwt-token") (some refusingClient)
    minimalUpdate (by decide)⟩

end Mercure
namespace Mercure

/-- C8 fails on the code: `Publish` never reads the client held by the publisher.
Its result is the same whatever client `NewPublisher` was given, and the request
goes through a fresh `&http.Client{}`: with a client that refuses every
connection, in a world whose default transport reaches the hub, `Publish` still
returns the hub's answer. -/
theorem C8_client_ignored :
    (∀ (w : World) (url : URL) (jwt : GoString) (h : Client) (u : Update),
        Publisher.Publish w (NewPublisher url jwt (some h)) u
          = Publisher.Publish w (NewPublisher url jwt none) u)
    ∧ (NewPublisher hubURL (ascii "jwt-token") (some refusingClient)).client = refusingClient
    ∧ (∀ r, Client.Do testWorld refusingClient r
        = .error (GoError.urlError (urlErrorOp r.Method) (testWorld.stripPassword r.URL)
            (errors.New (ascii "connection refused"))))
    ∧ (Publisher.Publish testWorld
        (NewPublisher hubURL (ascii "jwt-token") (some refusingClient)) minimalUpdate).id
        = ascii "uuid"
    ∧ (Publisher.Publish testWorld
        (NewPublisher hubURL (ascii "jwt-token") (some refusingClient)) minimalUpdate).err
        = none
    ∧ (∃ body r, (Publisher.Publish testWorld
        (NewPublisher hubURL (ascii "jwt-token") (some refusingClient)) minimalUpdate).calls
        = [Call.newRequest (ascii "POST") (URL.String hubURL) body,
           Call.clientDo { Transport := none } r]) := by
  refine ⟨fun _ _ _ _ _ => rfl, rfl, fun _ => rfl, by decide, by decide, ?_⟩
  exact ⟨_, _, rfl⟩

/-- A response that is no redirect is handed to the caller of `Do` as the
transport delivered it. -/
theorem Client.Do_of_ok (w : World) (r : Request) (resp : Response)
    (ht : w.DefaultTransport r = .ok resp)
    (hs : resp.StatusCode ∉ ([301, 302, 303, 307, 308] : List Int)) :
    Client.Do w { Transport := none } r = .ok resp := by
  simp only [List.mem_cons, List.mem_singleton, List.not_mem_nil, or_false, not_or] at hs
  obtain ⟨h1, h2, h3, h4, h5⟩ := hs
  simp [Client.Do, Client.doLoop, ht, redirectBehavior, h1, h2, h3, h4, h5]

/-- An error of the transport reaches the caller of `Do` wrapped in a
`*url.Error`. -/
theorem Client.Do_of_error (w : World) (r : Request) (e : GoError)
    (ht : w.DefaultTransport r = .error e) :
    Client.Do w { Transport := none } r
      = .error (GoError.urlError (urlErrorOp r.Method) (w.stripPassword r.URL) e) := by
  simp [Client.Do, Client.doLoop, ht]

/-- C9: for every update that passes validation, `Publish` hands the request it
built to the client `&http.Client{}`, once. When the client delivers a response
whose body is read without error, `Publish` returns the bytes of the body as the
identifier, with no error, whatever the status code; when the client fails, or
reading the body fails, `Publish` returns the empty identifier with that error;
and so it does when the request cannot be built. The client delivers a response
of the hub that is no redirect as it is, and a failure to send as a `*url.Error`
around the cause; it follows a redirect, and then the response delivered is the
one at the end: in `redirectWorld` the identifier is `final`. -/
theorem C9_response (w : World) (c : Publisher) (u : Update) (x : URL) (r : Request)
    (h : u.Valid)
    (hr : r = { Method := ascii "POST", URL := x,
                Header := Header.Set (Header.Set (Header.Set (Header.Set []
                  (ascii "User-Agent") (ascii "go-mercure/dev"))
                  (ascii "Authorization") (ascii "Bearer " ++ c.jwt))
                  (ascii "Content-Type") (ascii "application/x-www-form-urlencoded"))
                  (ascii "Content-Length")
                  (strconv.Itoa (Values.Encode (w.mapRange 1) (getData u).1).length),
                Body := Values.Encode (w.mapRange 0) (getData u).1 }) :
    (∀ e, w.urlParse (URL.String c.url) = .error e →
        (Publisher.Publish w c u).id = [] ∧ (Publisher.Publish w c u).err = some e
        ∧ (Publisher.Publish w c u).calls
            = [Call.newRequest (ascii "POST") (URL.String c.url) r.Body])
    ∧ (w.urlParse (URL.String c.url) = .ok x →
        (Publisher.Publish w c u).calls
            = [Call.newRequest (ascii "POST") (URL.String c.url) r.Body,
               Call.clientDo { Transport := none } r]
        ∧ (∀ resp b, Client.Do w { Transport := none } r = .ok resp → resp.Body = (b, none) →
            (Publisher.Publish w c u).id = b ∧ (Publisher.Publish w c u).err = none)
        ∧ (∀ e, Client.Do w { Transport := none } r = .error e →
            (Publisher.Publish w c u).id = [] ∧ (Publisher.Publish w c u).err = some e)
        ∧ (∀ resp b e, Client.Do w { Transport := none } r = .ok resp →
            resp.Body = (b, some e) →
            (Publisher.Publish w c u).id = [] ∧ (Publisher.Publish w c u).err = some e)
        ∧ (∀ resp b, w.DefaultTransport r = .ok resp →
            resp.StatusCode ∉ ([301, 302, 303, 307, 308] : List Int) → resp.Body = (b, none) →
            (Publisher.Publish w c u).id = b ∧ (Publisher.Publish w c u).err = none)
        ∧ (∀ e, w.DefaultTransport r = .error e →
            (Publisher.Publish w c u).id = []
            ∧ (Publisher.Publish w c u).err
                = some (GoError.urlError (ascii "Post") (w.stripPassword x) e)))
    ∧ (Publisher.Publish redirectWorld testPublisher minimalUpdate).id = ascii "final"
    ∧ (Publisher.Publish redirectWorld testPublisher minimalUpdate).err = none := by
  have key : ∀ res, Client.Do w { Transport := none } r = res →
      w.urlParse (URL.String c.url) = .ok x →
      Publisher.Publish w c u =
        match res with
        | .error e =>
          { id := [], err := some e,
            calls := [Call.newRequest (ascii "POST") (URL.String c.url) r.Body,
              Call.clientDo { Transport := none } r] }
        | .ok resp =>
          match resp.Body with
          | (_, some e) =>
            { id := [], err := some e,
              calls := [Call.newRequest (ascii "POST") (URL.String c.url) r.Body,
                Call.clientDo { Transport := none } r] }
          | (b, none) =>
            { id := b, err := none,
              calls := [Call.newRequest (ascii "POST") (URL.String c.url) r.Body,
                Call.clientDo { Transport := none } r] } := by
    intro res hres hx
    subst hres
    subst hr
    unfold Publisher.Publish
    rw [getData_valid u h]
    simp only [http.NewRequest, hx]
  refine ⟨?_, ?_, by decide, by decide⟩
  · intro e he
    subst hr
    unfold Publisher.Publish
    rw [getData_valid u h]
    simp [http.NewRequest, he]
  · intro hx
    have hop : urlErrorOp r.Method = ascii "Post" := by
      subst hr
      exact (by decide : urlErrorOp (ascii "POST") = ascii "Post")
    have hurl : r.URL = x := by rw [hr]
    refine ⟨?_, ?_, ?_, ?_, ?_, ?_⟩
    · rw [key _ rfl hx]
      cases hd : Client.Do w { Transport := none } r with
      | error e => rfl
      | ok resp =>
        obtain ⟨sc, hdr, b, e⟩ := resp
        cases e <;> rfl
    · intro resp b hd hb
      rw [key _ hd hx]
      simp [hb]
    · intro e hd
      rw [key _ hd hx]
      simp
    · intro resp b e hd hb
      rw [key _ hd hx]
      simp [hb]
    · intro resp b ht hs hb
      rw [key _ (Client.Do_of_ok w r resp ht hs) hx]
      simp [hb]
    · intro e ht
      have hd := Client.Do_of_error w r e ht
      rw [hop, hurl] at hd
      rw [key _ hd hx]
      simp

theorem C9_response_witness :
    minimalUpdate.Valid
    ∧ testWorld.urlParse (URL.String testPublisher.url) = .ok hubURL
    ∧ (Publisher.Publish testWorld testPublisher minimalUpdate).calls
        = [Call.newRequest (ascii "POST") (URL.String hubURL)
            (ascii "data=Hello+World&topic=http%3A%2F%2Flocalhost%2Ftest"),
           Call.clientDo { Transport := none }
            { Method := ascii "POST", URL := hubURL,
              Header := [(ascii "User-Agent", [ascii "go-mercure/dev"]),
                (ascii "Authorization", [ascii "Bearer jwt-token"]),
                (ascii "Content-Type", [ascii "application/x-www-form-urlencoded"]),
                (ascii "Content-Length", [ascii "52"])],
              Body := ascii "data=Hello+World&topic=http%3A%2F%2Flocalhost%2Ftest" }]
    ∧ Client.Do testWorld { Transport := none }
        { Method := ascii "POST", URL := hubURL,
          Header := [(ascii "User-Agent", [ascii "go-mercure/dev"]),
            (ascii "Authorization", [ascii "Bearer jwt-token"]),
            (ascii "Content-Type", [ascii "application/x-www-form-urlencoded"]),
            (ascii "Content-Length", [ascii "52"])],
          Body := ascii "data=Hello+World&topic=http%3A%2F%2Flocalhost%2Ftest" }
        = .ok { StatusCode := 200, Header := [], Body := (ascii "uuid", none) }
    ∧ (Publisher.Publish testWorld testPublisher minimalUpdate).id = ascii "uuid"
    ∧ (Publisher.Publish testWorld testPublisher minimalUpdate).err = none
    ∧ (Publisher.Publish redirectWorld testPublisher minimalUpdate).id = ascii "final"
    ∧ (Publisher.Publish redirectWorld testPublisher minimalUpdate).err = none :=
  have t := C9_response testWorld testPublisher minimalUpdate hubURL
    { Method := ascii "POST", URL := hubURL,
      Header := [(ascii "User-Agent", [ascii "go-mercure/dev"]),
        (ascii "Authorization", [ascii "Bearer jwt-token"]),
        (ascii "Content-Type", [ascii "application/x-www-form-urlencoded"]),
        (ascii "Content-Length", [ascii "52"])],
      Body := ascii "data=Hello+World&topic=http%3A%2F%2Flocalhost%2Ftest" }
    (by decide) (by decide)
  ⟨by decide, rfl, (t.2.1 rfl).1, rfl,
    ((t.2.1 rfl).2.1 _ (ascii "uuid") rfl rfl).1,
    ((t.2.1 rfl).2.1 _ (ascii "uuid") rfl rfl).2, t.2.2.1, t.2.2.2⟩

/-- C10: the body is unambiguous. For every two updates that pass validation, if
the bodies `Encode` writes for their fields are the same bytes, the updates have
the same topics, data, targets, id and type. A topic that spells out a second
field, `a&target=b`, does not give the body of the update that has that field. -/
theorem C10_body_unambiguous (w : World) (n m : Nat) (u1 u2 : Update) (hw : w.WellFormed)
    (h1 : u1.Valid) (h2 : u2.Valid)
    (h : Values.Encode (w.mapRange n) (getData u1).1
      = Values.Encode (w.mapRange m) (getData u2).1) :
    (u1.Topics = u2.Topics ∧ u1.Data = u2.Data ∧ u1.Targets = u2.Targets ∧ u1.Id = u2.Id
      ∧ u1.Type_ = u2.Type_)
    ∧ Values.Encode (w.mapRange n) (getData injectingUpdate).1
        ≠ Values.Encode (w.mapRange m) (getData injectedUpdate).1 := by
  refine ⟨?_, ?_⟩
  · rw [getData_valid u1 h1, getData_valid u2 h2, Encode_fieldsOf _ u1 (hw n _),
      Encode_fieldsOf _ u2 (hw m _)] at h
    exact fieldsOf_body_injective u1 u2 h
  · rw [getData_valid injectingUpdate (by decide), getData_valid injectedUpdate (by decide),
      Encode_fieldsOf _ injectingUpdate (hw n _), Encode_fieldsOf _ injectedUpdate (hw m _)]
    decide

theorem C10_body_unambiguous_witness :
    testWorld.WellFormed ∧ surrogateRetryUpdate.Valid ∧ replacementRetryUpdate.Valid
    ∧ Values.Encode (testWorld.mapRange 0) (getData surrogateRetryUpdate).1
        = Values.Encode (testWorld.mapRange 1) (getData replacementRetryUpdate).1
    ∧ (surrogateRetryUpdate.Topics = replacementRetryUpdate.Topics
        ∧ surrogateRetryUpdate.Data = replacementRetryUpdate.Data
        ∧ surrogateRetryUpdate.Targets = replacementRetryUpdate.Targets
        ∧ surrogateRetryUpdate.Id = replacementRetryUpdate.Id
        ∧ surrogateRetryUpdate.Type_ = replacementRetryUpdate.Type_)
    ∧ Values.Encode (testWorld.mapRange 0) (getData injectingUpdate).1
        ≠ Values.Encode (testWorld.mapRange 1) (getData injectedUpdate).1 :=
  ⟨fun _ keys => List.reverse_perm keys, by decide, by decide, by decide,
    C10_body_unambiguous testWorld 0 1 surrogateRetryUpdate replacementRetryUpdate
      (fun _ keys => List.reverse_perm keys) (by decide) (by decide) (by decide)⟩

end Mercure
